import Mathlib

/-
  Verification of the pixel-processing pipeline and history mechanism of
  the Sparrow image filter studio (src/App.js).

  Machine integers of the source (RGBA8 channel bytes) are modelled as ℕ,
  JS numbers as ℚ.  A raster is a width, a height and a pixel lookup
  function; reads outside the stated bounds never occur in the modelled
  operations at the indices the theorems talk about.
-/

namespace Sparrow

/-- One RGBA8 pixel, four channel bytes (modelled as ℕ). -/
structure Pixel where
  r : ℕ
  g : ℕ
  b : ℕ
  a : ℕ
deriving DecidableEq, Repr

/-- A raster: dimensions plus pixel lookup (canvas ImageData of the source). -/
structure Buffer where
  width : ℕ
  height : ℕ
  data : ℕ → ℕ → Pixel

/-- Rounding used by a JS Uint8ClampedArray store: nearest integer, ties to even. -/
def roundTE (q : ℚ) : ℤ :=
  if q - ⌊q⌋ = 1 / 2 then (if ⌊q⌋ % 2 = 0 then ⌊q⌋ else ⌊q⌋ + 1) else round q

/-- A store into a Uint8ClampedArray slot after the explicit
Math.max(0, Math.min(255, r)) clamp of the source: clamp then round. -/
def clampRound (q : ℚ) : ℕ :=
  (roundTE (max 0 (min 255 q))).toNat

/-- Modelled from the spec: nearest-neighbor sampling, the behavior of canvas
drawImage with imageSmoothingEnabled = false (spec 4.2); the canvas primitive
itself is browser code, not part of this repository. -/
def nnScale (src : Buffer) (dw dh : ℕ) : Buffer :=
  ⟨dw, dh, fun x y => src.data (x * src.width / dw) (y * src.height / dh)⟩

/-- The two-step pixelation of drawFull (App.js lines 332-349): factor is
floored to at least 1, reduced dimensions are max(1, floor(dim / factor)),
downscale then upscale, both nearest-neighbor. -/
def pixelBase (img : Buffer) (pf : ℕ) : Buffer :=
  nnScale
    (nnScale img (max 1 (img.width / max 1 pf)) (max 1 (img.height / max 1 pf)))
    img.width img.height

/-- The Resampler pixelate operation: identity for factor at most 1,
otherwise the two-step nearest-neighbor path of drawFull. -/
def pixelateOp (img : Buffer) (pf : ℕ) : Buffer :=
  if 1 < pf then pixelBase img pf else img

/-- The filter value state f of App.js (brightness .. pixelate). -/
structure FParams where
  brightness : ℚ
  contrast : ℚ
  saturation : ℚ
  hue : ℚ
  grayscale : ℚ
  sepia : ℚ
  invert : ℚ
  blur : ℚ
  pixelate : ℕ
deriving DecidableEq, Repr

/-- The isNoOp test of drawFull (App.js lines 353-355): every tone value at
its identity setting. -/
def isNoOpP (f : FParams) : Prop :=
  f.brightness = 100 ∧ f.contrast = 100 ∧ f.saturation = 100 ∧ f.hue = 0 ∧
    f.grayscale = 0 ∧ f.sepia = 0 ∧ f.invert = 0 ∧ f.blur = 0

instance (f : FParams) : Decidable (isNoOpP f) := by
  unfold isNoOpP; infer_instance

/-- kernelFromName of App.js lines 384-391. -/
def kernelFromName (name : String) : List ℚ :=
  match name with
  | "Sharpen" => [0, -1, 0, -1, 5, -1, 0, -1, 0]
  | "Blur" => [1, 1, 1, 1, 1, 1, 1, 1, 1]
  | "Emboss" => [-2, -1, 0, -1, 1, 1, 0, 1, 2]
  | _ => [0, 0, 0, 0, 1, 0, 0, 0, 0]

/-- Interior pixels: the loop bounds 1 <= x < width-1, 1 <= y < height-1 of
applyKernel and applySobel, written over ℕ without truncated subtraction. -/
def interior (b : Buffer) (x y : ℕ) : Prop :=
  1 ≤ x ∧ x + 1 < b.width ∧ 1 ≤ y ∧ y + 1 < b.height

instance (b : Buffer) (x y : ℕ) : Decidable (interior b x y) := by
  unfold interior; infer_instance

/-- The weighted 3x3 neighborhood sum of applyKernel (App.js lines 404-410),
the two nested loops over ky, kx unrolled in source order (row-major, p = 0..8). -/
def conv3 (b : Buffer) (k : List ℚ) (x y : ℕ) (ch : Pixel → ℕ) : ℚ :=
  k.getD 0 0 * (ch (b.data (x - 1) (y - 1)) : ℚ) +
  k.getD 1 0 * (ch (b.data x (y - 1)) : ℚ) +
  k.getD 2 0 * (ch (b.data (x + 1) (y - 1)) : ℚ) +
  k.getD 3 0 * (ch (b.data (x - 1) y) : ℚ) +
  k.getD 4 0 * (ch (b.data x y) : ℚ) +
  k.getD 5 0 * (ch (b.data (x + 1) y) : ℚ) +
  k.getD 6 0 * (ch (b.data (x - 1) (y + 1)) : ℚ) +
  k.getD 7 0 * (ch (b.data x (y + 1)) : ℚ) +
  k.getD 8 0 * (ch (b.data (x + 1) (y + 1)) : ℚ)

/-- Kernel normalization of applyKernel (App.js lines 398-399): the sum via
reduce, replaced by 1 when it is 0 (the JS or-1 idiom), each weight divided
by it. -/
def normWeights (kernel : List ℚ) : List ℚ :=
  kernel.map (fun v => v / (if kernel.sum = 0 then 1 else kernel.sum))

/-- applyKernel of App.js lines 393-419: interior pixels get the clamped
normalized 3x3 weighted sum per RGB channel with alpha forced to 255; every
other pixel keeps the all-zero value of createImageData, and putImageData
replaces the whole canvas with that output. -/
def applyKernel (b : Buffer) (kernel : List ℚ) : Buffer :=
  ⟨b.width, b.height, fun x y =>
    if interior b x y then
      ⟨clampRound (conv3 b (normWeights kernel) x y Pixel.r),
       clampRound (conv3 b (normWeights kernel) x y Pixel.g),
       clampRound (conv3 b (normWeights kernel) x y Pixel.b), 255⟩
    else ⟨0, 0, 0, 0⟩⟩

/-- The luma byte of applySobel (App.js lines 428-431): NTSC weights, stored
into a Uint8ClampedArray slot. -/
def lumaByte (p : Pixel) : ℕ :=
  clampRound (299 / 1000 * (p.r : ℚ) + 587 / 1000 * (p.g : ℚ) + 114 / 1000 * (p.b : ℚ))

/-- The horizontal Sobel gradient sx over a luma field (kernel -1 0 1 -2 0 2 -1 0 1),
the loop of App.js lines 440-446 unrolled. -/
def sobelGx (g : ℕ → ℕ → ℕ) (x y : ℕ) : ℤ :=
  -(g (x - 1) (y - 1) : ℤ) + (g (x + 1) (y - 1) : ℤ) -
    2 * (g (x - 1) y : ℤ) + 2 * (g (x + 1) y : ℤ) -
    (g (x - 1) (y + 1) : ℤ) + (g (x + 1) (y + 1) : ℤ)

/-- The vertical Sobel gradient sy (kernel -1 -2 -1 0 0 0 1 2 1). -/
def sobelGy (g : ℕ → ℕ → ℕ) (x y : ℕ) : ℤ :=
  -(g (x - 1) (y - 1) : ℤ) - 2 * (g x (y - 1) : ℤ) - (g (x + 1) (y - 1) : ℤ) +
    (g (x - 1) (y + 1) : ℤ) + 2 * (g x (y + 1) : ℤ) + (g (x + 1) (y + 1) : ℤ)

/-- Nearest integer to the square root of n.  The square root of a natural
number is never exactly halfway between two integers, so ties never occur. -/
def natSqrtRound (n : ℕ) : ℕ :=
  if Nat.sqrt n * Nat.sqrt n + Nat.sqrt n < n then Nat.sqrt n + 1 else Nat.sqrt n

/-- The magnitude byte of applySobel line 447: Math.min(255, Math.hypot(sx, sy))
stored into a Uint8ClampedArray slot.  Since sx, sy are integers (the luma
field is a Uint8ClampedArray), the stored byte is min 255 of the rounded
square root of sx^2 + sy^2. -/
def sobelMagByte (sx sy : ℤ) : ℕ :=
  min 255 (natSqrtRound (sx ^ 2 + sy ^ 2).toNat)

/-- applySobel of App.js lines 421-453: luma field, Sobel gradients, magnitude
written to all three RGB channels with alpha 255 at interior pixels; every
other pixel keeps the all-zero value of createImageData, and putImageData
replaces the whole canvas with that output. -/
def applySobel (b : Buffer) : Buffer :=
  ⟨b.width, b.height, fun x y =>
    if interior b x y then
      ⟨sobelMagByte (sobelGx (fun i j => lumaByte (b.data i j)) x y)
          (sobelGy (fun i j => lumaByte (b.data i j)) x y),
       sobelMagByte (sobelGx (fun i j => lumaByte (b.data i j)) x y)
          (sobelGy (fun i j => lumaByte (b.data i j)) x y),
       sobelMagByte (sobelGx (fun i j => lumaByte (b.data i j)) x y)
          (sobelGy (fun i j => lumaByte (b.data i j)) x y), 255⟩
    else ⟨0, 0, 0, 0⟩⟩

/-- The optional post effects of drawFull (App.js lines 377-379): Sobel when
edgeDetect is set, then the named kernel when it is not "None". -/
def applyEffects (edgeDetect : Bool) (kernelName : String) (b : Buffer) : Buffer :=
  if kernelName ≠ "None" then
    applyKernel (if edgeDetect then applySobel b else b) (kernelFromName kernelName)
  else (if edgeDetect then applySobel b else b)

/-- drawFull of App.js lines 319-381.  The browser CSS filter chain applied
through ctx.filter is external platform code; it is passed in as tm, the
per-parameter buffer transform (spec 4.3 gives its per-pixel formulas). -/
def drawFull (tm : FParams → Buffer → Buffer) (img : Buffer) (f : FParams)
    (edgeDetect : Bool) (kernelName : String) (showOriginal : Bool) : Buffer :=
  if showOriginal then img
  else
    applyEffects edgeDetect kernelName
      (if 1 < f.pixelate then
        (if isNoOpP f then pixelBase img f.pixelate else tm f (pixelBase img f.pixelate))
      else tm f img)

/-- Follows the spec (4.6 and claim C1): the single composition — optional
effects applied to the tone map of the pixelated source. -/
def renderSpec (tm : FParams → Buffer → Buffer) (img : Buffer) (f : FParams)
    (edgeDetect : Bool) (kernelName : String) : Buffer :=
  applyEffects edgeDetect kernelName (tm f (pixelateOp img f.pixelate))

/-- History state of App.js lines 182-183: the entry list (PNG data URLs,
abstracted to an arbitrary type) and the cursor hIndex, starting at -1. -/
structure HState (α : Type) where
  entries : List α
  cursor : ℤ
deriving DecidableEq, Repr

/-- JS arr.slice(-20): the last 20 elements (all of them when fewer). -/
def last20 {α : Type} (l : List α) : List α :=
  l.drop (l.length - 20)

/-- pushHistory of App.js lines 278-287: keep the entries up to the cursor,
append the new snapshot, keep only the last 20, and advance the cursor
capped at 19. -/
def pushH {α : Type} (s : HState α) (e : α) : HState α :=
  ⟨last20 (s.entries.take (s.cursor + 1).toNat ++ [e]), min (s.cursor + 1) 19⟩

/-- undo of App.js lines 301-306: when the cursor is positive, restore the
entry before it and decrement; otherwise do nothing.  The restored entry is
returned alongside the new state. -/
def undoH {α : Type} (s : HState α) : Option α × HState α :=
  if 0 < s.cursor then
    (s.entries.get? (s.cursor - 1).toNat, ⟨s.entries, s.cursor - 1⟩)
  else (none, s)

/-- redo of App.js lines 308-313: when the cursor is before the last entry,
restore the entry after it and increment; otherwise do nothing. -/
def redoH {α : Type} (s : HState α) : Option α × HState α :=
  if s.cursor < (s.entries.length : ℤ) - 1 then
    (s.entries.get? (s.cursor + 1).toNat, ⟨s.entries, s.cursor + 1⟩)
  else (none, s)

/-- One history operation. -/
inductive HOp (α : Type) where
  | push (e : α)
  | undo
  | redo

/-- The state transition of one history operation. -/
def stepH {α : Type} (s : HState α) (op : HOp α) : HState α :=
  match op with
  | .push e => pushH s e
  | .undo => (undoH s).2
  | .redo => (redoH s).2

/-- Run a sequence of history operations from the fresh session state
(empty entry list, cursor -1). -/
def runOps {α : Type} (ops : List (HOp α)) : HState α :=
  ops.foldl stepH ⟨[], -1⟩

/-- The HistoryStack invariant of spec 3: cursor in [-1, length-1] and at
most 20 entries. -/
def histInv {α : Type} (s : HState α) : Prop :=
  -1 ≤ s.cursor ∧ s.cursor ≤ (s.entries.length : ℤ) - 1 ∧ s.entries.length ≤ 20

instance {α : Type} (s : HState α) : Decidable (histInv s) := by
  unfold histInv; infer_instance

/-
  Theorems.
-/

/-- Claim C1: for every source image and parameter set rendered with
showOriginal false, and for any tone-map transform tm that is the identity at
the all-neutral parameter values (as the browser CSS filter chain is), the two
code paths of drawFull — tone-mapping the already-pixelated buffer when
pixelate exceeds 1, versus tone-mapping during the base draw when pixelate is
at most 1 — produce exactly the single composition: effects applied to
toneMap(pixelate(source, factor), params).  Tone mapping always happens after
pixelation. -/
theorem drawFull_eq_renderSpec (tm : FParams → Buffer → Buffer) (img : Buffer)
    (f : FParams) (edgeDetect : Bool) (kernelName : String)
    (htm : ∀ b, isNoOpP f → tm f b = b) :
    drawFull tm img f edgeDetect kernelName false =
      renderSpec tm img f edgeDetect kernelName := by
  unfold drawFull renderSpec pixelateOp
  rw [if_neg Bool.false_ne_true]
  by_cases hpx : 1 < f.pixelate
  · rw [if_pos hpx, if_pos hpx]
    by_cases hno : isNoOpP f
    · rw [if_pos hno, htm _ hno]
    · rw [if_neg hno]
  · rw [if_neg hpx, if_neg hpx]

/-- A concrete 2x2 source raster used by witnesses. -/
def imgW : Buffer :=
  ⟨2, 2, fun _ _ => ⟨10, 20, 30, 255⟩⟩

/-- The all-neutral filter values of App.js line 155-165 (pixelate 2 here). -/
def fNeutralPix2 : FParams :=
  ⟨100, 100, 100, 0, 0, 0, 0, 0, 2⟩

/-- Witness for C1 at a concrete tone map, source and parameter set. -/
theorem drawFull_eq_renderSpec_witness :
    drawFull (fun _ b => b) imgW fNeutralPix2 false "None" false =
      renderSpec (fun _ b => b) imgW fNeutralPix2 false "None" :=
  drawFull_eq_renderSpec (fun _ b => b) imgW fNeutralPix2 false "None"
    (fun _ _ => rfl)

/-- Claim C3: pixelation with factor at most 1 returns the source unchanged;
with factor greater than 1 it downscales to tw = max(1, floor(width/factor)),
th = max(1, floor(height/factor)) by nearest-neighbor sampling and upscales
the result back to the original width and height by nearest-neighbor
sampling, so the output keeps the source dimensions. -/
theorem pixelate_two_step (img : Buffer) (pf : ℕ) :
    (pf ≤ 1 → pixelateOp img pf = img) ∧
    (1 < pf →
      pixelateOp img pf =
        nnScale (nnScale img (max 1 (img.width / pf)) (max 1 (img.height / pf)))
          img.width img.height ∧
      (pixelateOp img pf).width = img.width ∧
      (pixelateOp img pf).height = img.height ∧
      (nnScale img (max 1 (img.width / pf)) (max 1 (img.height / pf))).width =
        max 1 (img.width / pf) ∧
      (nnScale img (max 1 (img.width / pf)) (max 1 (img.height / pf))).height =
        max 1 (img.height / pf)) := by
  constructor
  · intro h
    unfold pixelateOp
    rw [if_neg (by omega)]
  · intro h
    have hmax : max 1 pf = pf := by omega
    unfold pixelateOp pixelBase
    rw [if_pos h, hmax]
    exact ⟨rfl, rfl, rfl, rfl, rfl⟩

/-- Witness for C3 at a concrete 2x2 raster, factors 1 and 2. -/
theorem pixelate_two_step_witness :
    pixelateOp imgW 1 = imgW ∧
    pixelateOp imgW 2 =
      nnScale (nnScale imgW (max 1 (imgW.width / 2)) (max 1 (imgW.height / 2)))
        imgW.width imgW.height :=
  ⟨(pixelate_two_step imgW 1).1 (by omega),
   ((pixelate_two_step imgW 2).2 (by omega)).1⟩

/-- Follows the spec (claim C2): the raw weighted 3x3 sum divided once by the
kernel sum (by 1 when the sum is 0). -/
def specConv (kernel : List ℚ) (b : Buffer) (x y : ℕ) (ch : Pixel → ℕ) : ℚ :=
  conv3 b kernel x y ch / (if kernel.sum = 0 then 1 else kernel.sum)

theorem getD_map_div (l : List ℚ) (c : ℚ) (n : ℕ) :
    (l.map (fun v => v / c)).getD n 0 = l.getD n 0 / c := by
  induction l generalizing n with
  | nil => simp
  | cons a t ih =>
    cases n with
    | zero => simp
    | succ m =>
      simp only [List.map_cons, List.getD_cons_succ]
      exact ih m

theorem conv3_normWeights (b : Buffer) (ker : List ℚ) (x y : ℕ) (ch : Pixel → ℕ) :
    conv3 b (normWeights ker) x y ch = specConv ker b x y ch := by
  unfold specConv normWeights conv3
  rw [getD_map_div, getD_map_div, getD_map_div, getD_map_div, getD_map_div,
    getD_map_div, getD_map_div, getD_map_div, getD_map_div]
  ring

/-- Claim C2: convolution normalizes by dividing every weight by the kernel
sum (by 1 when the sum is 0); every interior pixel of the output holds the
weighted 3x3 neighborhood sum per RGB channel, clamped to [0,255] (and stored
as a byte), with alpha forced to 255; every pixel of the outermost ring is
left blank and fully transparent, all four channels 0. -/
theorem applyKernel_char (b : Buffer) (ker : List ℚ) (_hk : ker.length = 9)
    (x y : ℕ) :
    (interior b x y →
      (applyKernel b ker).data x y =
        ⟨clampRound (specConv ker b x y Pixel.r),
         clampRound (specConv ker b x y Pixel.g),
         clampRound (specConv ker b x y Pixel.b), 255⟩) ∧
    (¬ interior b x y → (applyKernel b ker).data x y = ⟨0, 0, 0, 0⟩) := by
  unfold applyKernel
  dsimp only
  constructor
  · intro h
    rw [if_pos h, conv3_normWeights, conv3_normWeights, conv3_normWeights]
  · intro h
    rw [if_neg h]

/-- A concrete non-uniform 3x3 raster used by witnesses. -/
def img3 : Buffer :=
  ⟨3, 3, fun x y => ⟨10 * x + y, 7, 100, 255⟩⟩

/-- Witness for C2: the box blur kernel on a concrete 3x3 raster, at the
interior pixel (1,1) and the corner ring pixel (0,0). -/
theorem applyKernel_char_witness :
    (applyKernel img3 (kernelFromName "Blur")).data 1 1 =
      ⟨clampRound (specConv (kernelFromName "Blur") img3 1 1 Pixel.r),
       clampRound (specConv (kernelFromName "Blur") img3 1 1 Pixel.g),
       clampRound (specConv (kernelFromName "Blur") img3 1 1 Pixel.b), 255⟩ ∧
    (applyKernel img3 (kernelFromName "Blur")).data 0 0 = ⟨0, 0, 0, 0⟩ :=
  ⟨(applyKernel_char img3 (kernelFromName "Blur") rfl 1 1).1 (by decide),
   (applyKernel_char img3 (kernelFromName "Blur") rfl 0 0).2 (by decide)⟩

/-- Claim C9: the Sobel detector on a uniform-color raster yields gradient
magnitude 0 — all three RGB channels 0, alpha 255 — at every interior pixel. -/
theorem sobel_uniform (b : Buffer) (c : Pixel)
    (hu : ∀ x y, x < b.width → y < b.height → b.data x y = c)
    (x y : ℕ) (h : interior b x y) :
    (applySobel b).data x y = ⟨0, 0, 0, 255⟩ := by
  obtain ⟨hx1, hx2, hy1, hy2⟩ := id h
  have e : ∀ i j, i < b.width → j < b.height →
      lumaByte (b.data i j) = lumaByte c := by
    intro i j hi hj
    rw [hu i j hi hj]
  have hgx : sobelGx (fun i j => lumaByte (b.data i j)) x y = 0 := by
    unfold sobelGx
    dsimp only
    rw [e (x - 1) (y - 1) (by omega) (by omega), e (x + 1) (y - 1) (by omega) (by omega),
      e (x - 1) y (by omega) (by omega), e (x + 1) y (by omega) (by omega),
      e (x - 1) (y + 1) (by omega) (by omega), e (x + 1) (y + 1) (by omega) (by omega)]
    ring
  have hgy : sobelGy (fun i j => lumaByte (b.data i j)) x y = 0 := by
    unfold sobelGy
    dsimp only
    rw [e (x - 1) (y - 1) (by omega) (by omega), e x (y - 1) (by omega) (by omega),
      e (x + 1) (y - 1) (by omega) (by omega), e (x - 1) (y + 1) (by omega) (by omega),
      e x (y + 1) (by omega) (by omega), e (x + 1) (y + 1) (by omega) (by omega)]
    ring
  unfold applySobel
  dsimp only
  rw [if_pos h, hgx, hgy]
  rfl

/-- A concrete uniform 3x3 raster used by witnesses. -/
def img3u : Buffer :=
  ⟨3, 3, fun _ _ => ⟨200, 10, 55, 255⟩⟩

/-- Witness for C9 at a concrete uniform 3x3 raster. -/
theorem sobel_uniform_witness :
    (applySobel img3u).data 1 1 = ⟨0, 0, 0, 255⟩ :=
  sobel_uniform img3u ⟨200, 10, 55, 255⟩ (fun _ _ _ _ => rfl) 1 1 (by decide)

/-- A degenerate 2x2 raster, solid red. -/
def degBuf : Buffer :=
  ⟨2, 2, fun _ _ => ⟨255, 0, 0, 255⟩⟩

/-- Claim C8: on a degenerate buffer (every pixel outside the interior, e.g.
2x2) the convolution and Sobel loops compute nothing, so the output written
back over the canvas is fully blank and transparent — not an unchanged copy
of the input as the spec states. -/
theorem degenerate_blanked :
    (applyKernel degBuf (kernelFromName "Sharpen")).data 0 0 = ⟨0, 0, 0, 0⟩ ∧
    (applySobel degBuf).data 0 0 = ⟨0, 0, 0, 0⟩ ∧
    applyKernel degBuf (kernelFromName "Sharpen") ≠ degBuf ∧
    applySobel degBuf ≠ degBuf := by
  refine ⟨by decide, by decide, fun h => ?_, fun h => ?_⟩
  · have h2 := congrArg (fun bb => bb.data 0 0) h
    revert h2
    decide
  · have h2 := congrArg (fun bb => bb.data 0 0) h
    revert h2
    decide

theorem pushH_histInv {α : Type} (s : HState α) (e : α) (h : histInv s) :
    histInv (pushH s e) := by
  obtain ⟨l, c⟩ := s
  obtain ⟨h1, h2, h3⟩ := h
  unfold pushH last20 histInv at *
  dsimp only at *
  simp only [List.length_drop, List.length_append, List.length_take,
    List.length_cons, List.length_nil]
  omega

theorem undoH_histInv {α : Type} (s : HState α) (h : histInv s) :
    histInv (undoH s).2 := by
  obtain ⟨l, c⟩ := s
  obtain ⟨h1, h2, h3⟩ := h
  unfold undoH histInv at *
  dsimp only at *
  by_cases hc : (0 : ℤ) < c
  · rw [if_pos hc]
    dsimp only
    omega
  · rw [if_neg hc]
    exact ⟨h1, h2, h3⟩

theorem redoH_histInv {α : Type} (s : HState α) (h : histInv s) :
    histInv (redoH s).2 := by
  obtain ⟨l, c⟩ := s
  obtain ⟨h1, h2, h3⟩ := h
  unfold redoH histInv at *
  dsimp only at *
  by_cases hc : c < (l.length : ℤ) - 1
  · rw [if_pos hc]
    dsimp only
    omega
  · rw [if_neg hc]
    exact ⟨h1, h2, h3⟩

/-- Claim C4: every sequence of push, undo and redo operations run from the
fresh session state (empty entry list, cursor -1) keeps the history
invariant: the cursor lies in [-1, length-1] and at most 20 entries are
retained (pushH evicts the oldest entries past 20). -/
theorem hist_invariant {α : Type} (ops : List (HOp α)) : histInv (runOps ops) := by
  unfold runOps
  have key : ∀ (l : List (HOp α)) (s : HState α),
      histInv s → histInv (l.foldl stepH s) := by
    intro l
    induction l with
    | nil => exact fun s hs => hs
    | cons op t ih =>
      intro s hs
      rw [List.foldl_cons]
      refine ih _ ?_
      cases op with
      | push e => exact pushH_histInv s e hs
      | undo => exact undoH_histInv s hs
      | redo => exact redoH_histInv s hs
  exact key ops ⟨[], -1⟩ (by constructor <;> simp)

/-- Snapshots 1..25 pushed in order. -/
def ops25 : List (HOp ℕ) :=
  (List.range 25).map (fun i => HOp.push (i + 1))

set_option maxRecDepth 8000 in
/-- Claim C5: pushing 25 snapshots into a fresh history retains exactly the
last 20, the oldest 5 (snapshots 1-5) are evicted, and the cursor sits on the
newest entry (index 19, holding snapshot 25). -/
theorem push25_bound :
    (runOps ops25).entries =
      [6, 7, 8, 9, 10, 11, 12, 13, 14, 15, 16, 17, 18, 19, 20, 21, 22, 23, 24, 25] ∧
    (runOps ops25).entries.length = 20 ∧
    (runOps ops25).cursor = 19 ∧
    (runOps ops25).entries.get? ((runOps ops25).cursor).toNat = some 25 := by
  decide

/-- Claim C6: pushing while the cursor is not at the last entry discards every
entry after the cursor — the new entry list is exactly the prefix up to the
cursor plus the new entry — and leaves the cursor on the final entry, so a
subsequent redo is a no-op returning none. -/
theorem push_destroys_redo {α : Type} (s : HState α) (e : α) (h : histInv s)
    (hc : s.cursor < (s.entries.length : ℤ) - 1) :
    (pushH s e).entries = s.entries.take (s.cursor + 1).toNat ++ [e] ∧
    (pushH s e).cursor = ((pushH s e).entries.length : ℤ) - 1 ∧
    redoH (pushH s e) = (none, pushH s e) := by
  obtain ⟨l, c⟩ := s
  obtain ⟨h1, h2, h3⟩ := h
  dsimp only at *
  have hlen : (l.take (c + 1).toNat ++ [e]).length = (c + 1).toNat + 1 := by
    simp only [List.length_append, List.length_take, List.length_cons,
      List.length_nil]
    omega
  have hent : (pushH ⟨l, c⟩ e).entries = l.take (c + 1).toNat ++ [e] := by
    unfold pushH last20
    dsimp only
    rw [hlen]
    have hz : (c + 1).toNat + 1 - 20 = 0 := by omega
    rw [hz, List.drop_zero]
  have hcur : (pushH ⟨l, c⟩ e).cursor = c + 1 := by
    unfold pushH
    dsimp only
    omega
  refine ⟨hent, ?_, ?_⟩
  · rw [hent, hcur, hlen]
    omega
  · unfold redoH
    rw [hent, hcur, hlen]
    rw [if_neg (by omega)]

/-- Witness for C6: a three-entry history with the cursor at index 0 (after
undos); pushing keeps only entry 1, appends 9, and redo is then a no-op. -/
theorem push_destroys_redo_witness :
    (pushH (⟨[1, 2, 3], 0⟩ : HState ℕ) 9).entries =
      ([1, 2, 3] : List ℕ).take ((0 : ℤ) + 1).toNat ++ [9] ∧
    (pushH (⟨[1, 2, 3], 0⟩ : HState ℕ) 9).cursor =
      (((pushH (⟨[1, 2, 3], 0⟩ : HState ℕ) 9).entries.length : ℤ)) - 1 ∧
    redoH (pushH (⟨[1, 2, 3], 0⟩ : HState ℕ) 9) =
      (none, pushH (⟨[1, 2, 3], 0⟩ : HState ℕ) 9) :=
  push_destroys_redo (⟨[1, 2, 3], 0⟩ : HState ℕ) 9 (by decide) (by decide)

/-- Claim C7: undo returns the entry before the cursor and decrements it only
when the cursor is positive and is otherwise a no-op returning none; redo
returns the entry after the cursor and increments it only when the cursor is
before the last entry and is otherwise a no-op; neither boundary is an
error. -/
theorem undo_redo_boundary {α : Type} (s : HState α) (h : histInv s) :
    (0 < s.cursor →
      undoH s = (s.entries.get? (s.cursor - 1).toNat, ⟨s.entries, s.cursor - 1⟩) ∧
      (s.entries.get? (s.cursor - 1).toNat).isSome = true) ∧
    (s.cursor ≤ 0 → undoH s = (none, s)) ∧
    (s.cursor < (s.entries.length : ℤ) - 1 →
      redoH s = (s.entries.get? (s.cursor + 1).toNat, ⟨s.entries, s.cursor + 1⟩) ∧
      (s.entries.get? (s.cursor + 1).toNat).isSome = true) ∧
    ((s.entries.length : ℤ) - 1 ≤ s.cursor → redoH s = (none, s)) := by
  obtain ⟨l, c⟩ := s
  obtain ⟨h1, h2, h3⟩ := h
  dsimp only at *
  refine ⟨?_, ?_, ?_, ?_⟩
  · intro hlt
    unfold undoH
    dsimp only
    rw [if_pos hlt]
    have hix : (c - 1).toNat < l.length := by omega
    rw [List.get?_eq_get hix]
    exact ⟨rfl, rfl⟩
  · intro hle
    unfold undoH
    dsimp only
    rw [if_neg (by omega)]
  · intro hlt
    unfold redoH
    dsimp only
    rw [if_pos hlt]
    have hix : (c + 1).toNat < l.length := by omega
    rw [List.get?_eq_get hix]
    exact ⟨rfl, rfl⟩
  · intro hle
    unfold redoH
    dsimp only
    rw [if_neg (by omega)]

/-- Witness for C7: at a three-entry history with the cursor on the middle
entry, undo yields the first entry with cursor 0 and redo yields the last
entry with cursor 2. -/
theorem undo_redo_boundary_witness :
    undoH (⟨[3, 4, 5], 1⟩ : HState ℕ) = (some 3, ⟨[3, 4, 5], 0⟩) ∧
    redoH (⟨[3, 4, 5], 1⟩ : HState ℕ) = (some 5, ⟨[3, 4, 5], 2⟩) :=
  ⟨((undo_redo_boundary (⟨[3, 4, 5], 1⟩ : HState ℕ) (by decide)).1 (by decide)).1,
   ((undo_redo_boundary (⟨[3, 4, 5], 1⟩ : HState ℕ) (by decide)).2.2.1 (by decide)).1⟩

/-- Claim C10: undo and redo never change the stored entry list — no entry is
added, removed or altered — they only move the cursor, and any buffer they
return for restoration is one of the already-stored entries. -/
theorem undo_redo_frame {α : Type} (s : HState α) :
    (undoH s).2.entries = s.entries ∧
    (redoH s).2.entries = s.entries ∧
    (∀ x, (undoH s).1 = some x → x ∈ s.entries) ∧
    (∀ x, (redoH s).1 = some x → x ∈ s.entries) := by
  obtain ⟨l, c⟩ := s
  unfold undoH redoH
  dsimp only
  refine ⟨?_, ?_, ?_, ?_⟩
  · by_cases hc : (0 : ℤ) < c
    · rw [if_pos hc]
    · rw [if_neg hc]
  · by_cases hc : c < (l.length : ℤ) - 1
    · rw [if_pos hc]
    · rw [if_neg hc]
  · intro x hx
    by_cases hc : (0 : ℤ) < c
    · rw [if_pos hc] at hx
      exact List.get?_mem hx
    · rw [if_neg hc] at hx
      exact absurd hx (by simp)
  · intro x hx
    by_cases hc : c < (l.length : ℤ) - 1
    · rw [if_pos hc] at hx
      exact List.get?_mem hx
    · rw [if_neg hc] at hx
      exact absurd hx (by simp)

/-- Witness for C10: undo on a concrete two-entry history keeps the entry
list intact and returns the stored entry 4. -/
theorem undo_redo_frame_witness :
    (undoH (⟨[4, 5], 1⟩ : HState ℕ)).2.entries = [4, 5] ∧
    (4 : ℕ) ∈ ([4, 5] : List ℕ) :=
  ⟨(undo_redo_frame (⟨[4, 5], 1⟩ : HState ℕ)).1,
   (undo_redo_frame (⟨[4, 5], 1⟩ : HState ℕ)).2.2.1 4 rfl⟩

end Sparrow
